import Mathlib

/-!
Verification of the frep matching-and-replacement engine.

The Rust sources are embedded shallowly:
  * bytes (`u8`) and UTF-8 text are both modelled as `List Char` (every byte
    of interest in the claims is an ASCII character, and the Rust code
    compares raw byte sequences for equality only);
  * fallible operations return `Except`/`Option`;
  * the file-system side effects of `replace_in_file` are modelled as an
    explicit event trace in the order the source performs them.

Sources embedded: `frep-core/src/replace.rs`, `frep-core/src/run.rs`.
The `line_reader` module and parts of the `search` module (`SearchType`,
`contains_search`) are not part of the source tree; those definitions are
modelled from the specification and are marked as such in their doc
comments.
-/

/-- Line terminator kinds, from the `line_reader` module (declared there,
used by `replace.rs`); the spec (§3, LineEndingKind) fixes the variants:
no terminator (final line), `\n`, and `\r\n`. -/
inductive LineEnding where
  | none
  | lf
  | crLf
deriving DecidableEq, Repr

/-- Byte rendering of a line terminator, mirroring `LineEnding::as_bytes`
used at `replace.rs:57`. -/
def LineEnding.asBytes : LineEnding → List Char
  | LineEnding.none => []
  | LineEnding.lf => ['\n']
  | LineEnding.crLf => ['\r', '\n']

/-- Modelled from the spec: helper of the Line Reader (§4.2).  `acc` holds
the bytes of the current line in reverse; on seeing `\n` the line is
classified as `\r\n`-terminated when its last byte is `\r` (which is then
stripped from the content), and `\n`-terminated otherwise. -/
def classifyLine (acc : List Char) : List Char × LineEnding :=
  match acc with
  | '\r' :: t => (t.reverse, LineEnding.crLf)
  | _ => (acc.reverse, LineEnding.lf)

/-- Modelled from the spec: the Line Reader (§4.2), i.e. the
`lines_with_endings` iterator of the missing `line_reader` module.  It
decodes a byte stream into `(content, terminator)` pairs without
normalising, and classifies a final unterminated segment as
`LineEnding.none` (emitted only when non-empty). -/
def linesWithEndingsAux (acc : List Char) : List Char → List (List Char × LineEnding)
  | [] => if acc.isEmpty then [] else [(acc.reverse, LineEnding.none)]
  | c :: rest =>
    if c = '\n' then classifyLine acc :: linesWithEndingsAux [] rest
    else linesWithEndingsAux (c :: acc) rest

/-- Modelled from the spec: the Line Reader entry point (§4.2). -/
def lines_with_endings (s : List Char) : List (List Char × LineEnding) :=
  linesWithEndingsAux [] s

example :
    lines_with_endings "line1\nline2\r\nline3".toList =
      [("line1".toList, LineEnding.lf), ("line2".toList, LineEnding.crLf),
       ("line3".toList, LineEnding.none)] := by decide

example :
    lines_with_endings "\n\r\nabc".toList =
      [([], LineEnding.lf), ([], LineEnding.crLf), ("abc".toList, LineEnding.none)] := by
  decide

/-- Outcome of one replacement attempt, from `replace.rs:12-16`. -/
inductive ReplaceResult where
  | Success
  | Error (msg : String)
deriving DecidableEq, Repr

/-- One scanned search result, from the `SearchResult` struct used by
`replace.rs` (fields `path`, `line_number`, `line`, `line_ending`,
`included`); the path is kept abstract as an optional string. -/
structure SearchResult where
  path : Option String
  line_number : Nat
  line : List Char
  line_ending : LineEnding
  included : Bool
deriving DecidableEq, Repr

/-- A search result together with its cached replacement text and (after
the write pass) its outcome, from the `SearchResultWithReplacement` struct
used by `replace.rs`. -/
structure SearchResultWithReplacement where
  search_result : SearchResult
  replacement : List Char
  replace_result : Option ReplaceResult
deriving DecidableEq, Repr

/-- `line_map.get(&line_number)` of `replace.rs:47`: the Rust code builds a
`HashMap` keyed by line number; over a list of candidates with distinct
line numbers this coincides with an association-list search. -/
def findCand : List SearchResultWithReplacement → Nat → Option SearchResultWithReplacement
  | [], _ => none
  | c :: rest, n =>
    if c.search_result.line_number == n then some c else findCand rest n

/-- The outcome assigned to a visited candidate (`replace.rs:48-55`):
`Success` when the freshly read line equals the cached original line,
otherwise the concurrent-modification error. -/
def lineResultFor (line : List Char) (c : SearchResultWithReplacement) : ReplaceResult :=
  if line = c.search_result.line then ReplaceResult.Success
  else ReplaceResult.Error "File changed since last search"

/-- The bytes written (before the terminator) for one input line
(`replace.rs:47-56`): the cached replacement when a candidate is pending
for this line number and its cached content matches, otherwise the line as
read. -/
def lineOut (cands : List SearchResultWithReplacement) (n : Nat) (line : List Char) :
    List Char :=
  match findCand cands n with
  | some c => if line = c.search_result.line then c.replacement else line
  | none => line

/-- Recording of the outcome on the pending candidate for line `n`
(`replace.rs:50-54`).  When no candidate has line number `n` this is the
identity; with distinct line numbers it updates exactly the candidate the
Rust `HashMap` holds. -/
def markLine (line : List Char) (n : Nat) (cands : List SearchResultWithReplacement) :
    List SearchResultWithReplacement :=
  cands.map (fun c =>
    if c.search_result.line_number == n
    then { c with replace_result := some (lineResultFor line c) }
    else c)

/-- The rewrite loop of `replace_in_file` (`replace.rs:44-59`): iterate the
lines in order; `idx` is the 0-based index of the next line, so the
1-indexed line number is `idx + 1`.  Returns the bytes written to the
temporary output file and the candidates with their recorded outcomes. -/
def replaceLinesAux (cands : List SearchResultWithReplacement) (idx : Nat) :
    List (List Char × LineEnding) → List Char × List SearchResultWithReplacement
  | [] => ([], cands)
  | (line, ending) :: rest =>
    let n := idx + 1
    let r := replaceLinesAux (markLine line n cands) (idx + 1) rest
    (lineOut cands n line ++ LineEnding.asBytes ending ++ r.1, r.2)

/-- Pure core of `replace_in_file` (`replace.rs:20-66`): given the bytes
of the target file and the pending candidates, produce the bytes of the
rewritten file (the temp file later renamed over the original) and the
candidates with their outcomes. -/
def replace_in_file (cands : List SearchResultWithReplacement) (file : List Char) :
    List Char × List SearchResultWithReplacement :=
  replaceLinesAux cands 0 (lines_with_endings file)


/-- Reference form of the rewritten file contents: every input line is
mapped to its computed output bytes followed by its own original
terminator (`enumFrom 1` supplies the 1-indexed line numbers). -/
def outputSpec (cands : List SearchResultWithReplacement)
    (L : List (List Char × LineEnding)) : List Char :=
  ((L.enumFrom 1).map (fun p => lineOut cands p.1 p.2.1 ++ LineEnding.asBytes p.2.2)).flatten

/-- The final outcome recorded on a candidate once the loop has consumed
all lines with 1-indexed numbers greater than `idx`: a candidate whose
line number is in range is marked by comparing against the corresponding
line's fresh content; an out-of-range candidate is left untouched. -/
def finalMarkFrom (idx : Nat) (L : List (List Char × LineEnding))
    (c : SearchResultWithReplacement) : SearchResultWithReplacement :=
  if idx < c.search_result.line_number then
    match L.get? (c.search_result.line_number - idx - 1) with
    | some le => { c with replace_result := some (lineResultFor le.1 c) }
    | none => c
  else c

theorem markLine_step_search_result (line : List Char) (m : Nat)
    (c : SearchResultWithReplacement) :
    (if c.search_result.line_number == m
     then { c with replace_result := some (lineResultFor line c) }
     else c).search_result = c.search_result := by
  split <;> rfl

theorem markLine_step_replacement (line : List Char) (m : Nat)
    (c : SearchResultWithReplacement) :
    (if c.search_result.line_number == m
     then { c with replace_result := some (lineResultFor line c) }
     else c).replacement = c.replacement := by
  split <;> rfl

theorem findCand_markLine (l : List Char) (m : Nat)
    (cands : List SearchResultWithReplacement) (n : Nat) :
    findCand (markLine l m cands) n =
      Option.map
        (fun c =>
          if c.search_result.line_number == m
          then { c with replace_result := some (lineResultFor l c) }
          else c)
        (findCand cands n) := by
  induction cands with
  | nil => rfl
  | cons c t ih =>
    simp only [markLine, List.map_cons, findCand] at *
    rw [markLine_step_search_result]
    by_cases h : (c.search_result.line_number == n) = true
    · simp [h]
    · simp only [h, if_false, Bool.false_eq_true] at *
      simpa [markLine] using ih

theorem lineOut_markLine (l : List Char) (m : Nat)
    (cands : List SearchResultWithReplacement) (n : Nat) (line : List Char) :
    lineOut (markLine l m cands) n line = lineOut cands n line := by
  unfold lineOut
  rw [findCand_markLine]
  cases hc : findCand cands n with
  | none => rfl
  | some c =>
    simp only [Option.map_some']
    rw [markLine_step_search_result, markLine_step_replacement]

theorem replaceLinesAux_fst (L : List (List Char × LineEnding)) :
    ∀ (cands : List SearchResultWithReplacement) (idx : Nat),
      (replaceLinesAux cands idx L).1 =
        ((L.enumFrom (idx + 1)).map
          (fun p => lineOut cands p.1 p.2.1 ++ LineEnding.asBytes p.2.2)).flatten := by
  induction L with
  | nil => intro cands idx; rfl
  | cons hd rest ih =>
    intro cands idx
    obtain ⟨line, ending⟩ := hd
    simp only [replaceLinesAux, List.enumFrom_cons, List.map_cons, List.flatten_cons]
    rw [ih]
    have hcongr :
        ((rest.enumFrom (idx + 1 + 1)).map
          (fun p => lineOut (markLine line (idx + 1) cands) p.1 p.2.1 ++
            LineEnding.asBytes p.2.2)) =
        ((rest.enumFrom (idx + 1 + 1)).map
          (fun p => lineOut cands p.1 p.2.1 ++ LineEnding.asBytes p.2.2)) := by
      apply List.map_congr_left
      intro p _
      rw [lineOut_markLine]
    rw [hcongr, List.append_assoc]

theorem finalMarkFrom_nil (idx : Nat) (c : SearchResultWithReplacement) :
    finalMarkFrom idx [] c = c := by
  unfold finalMarkFrom
  split <;> rfl

theorem finalMarkFrom_step (line : List Char) (ending : LineEnding)
    (rest : List (List Char × LineEnding)) (idx : Nat)
    (c : SearchResultWithReplacement) :
    finalMarkFrom (idx + 1) rest
      (if c.search_result.line_number == idx + 1
       then { c with replace_result := some (lineResultFor line c) }
       else c) =
    finalMarkFrom idx ((line, ending) :: rest) c := by
  by_cases h : c.search_result.line_number = idx + 1
  · have hb : (c.search_result.line_number == idx + 1) = true := by
      exact beq_iff_eq.mpr h
    rw [if_pos hb]
    unfold finalMarkFrom
    have h1 : ¬ (idx + 1 < c.search_result.line_number) := by omega
    have h2 : idx < c.search_result.line_number := by omega
    rw [if_neg (by simpa using h1), if_pos h2]
    have h3 : c.search_result.line_number - idx - 1 = 0 := by omega
    rw [h3]
    rfl
  · have hb : (c.search_result.line_number == idx + 1) = false := by
      exact beq_eq_false_iff_ne.mpr h
    rw [if_neg (by simp [hb])]
    unfold finalMarkFrom
    by_cases hlt : idx < c.search_result.line_number
    · have hge : idx + 1 < c.search_result.line_number := by omega
      rw [if_pos hge, if_pos hlt]
      have h4 : c.search_result.line_number - idx - 1 =
          (c.search_result.line_number - (idx + 1) - 1) + 1 := by omega
      rw [h4, List.get?_cons_succ]
    · have hge : ¬ (idx + 1 < c.search_result.line_number) := by omega
      rw [if_neg hge, if_neg hlt]

theorem replaceLinesAux_snd (L : List (List Char × LineEnding)) :
    ∀ (cands : List SearchResultWithReplacement) (idx : Nat),
      (replaceLinesAux cands idx L).2 = cands.map (finalMarkFrom idx L) := by
  induction L with
  | nil =>
    intro cands idx
    have : cands.map (finalMarkFrom idx []) = cands.map id := by
      apply List.map_congr_left
      intro c _
      rw [finalMarkFrom_nil]
      rfl
    simp [replaceLinesAux, this]
  | cons hd rest ih =>
    intro cands idx
    obtain ⟨line, ending⟩ := hd
    simp only [replaceLinesAux]
    rw [ih]
    unfold markLine
    rw [List.map_map]
    apply List.map_congr_left
    intro c _
    exact finalMarkFrom_step line ending rest idx c

/-- Specialisation at the top of the loop: `replace_in_file` writes, for
each input line, its computed output followed by the line's own
terminator, and records on each candidate the outcome determined by the
line at its 1-indexed line number. -/
theorem replace_in_file_eq (cands : List SearchResultWithReplacement) (file : List Char) :
    replace_in_file cands file =
      (outputSpec cands (lines_with_endings file),
       cands.map (finalMarkFrom 0 (lines_with_endings file))) := by
  unfold replace_in_file outputSpec
  have h1 := replaceLinesAux_fst (lines_with_endings file) cands 0
  have h2 := replaceLinesAux_snd (lines_with_endings file) cands 0
  exact Prod.ext h1 h2

/-- Abstract model of a compiled regular expression: the pattern source
text plus its executable match-test and global-substitution behaviour.
The regex engines themselves (`regex`, `fancy_regex`) are external crates
and are kept opaque. -/
structure RegexM where
  source : List Char
  isMatch : List Char → Bool
  replaceAll : List Char → List Char → List Char

/-- The `SearchType` enum of the `search` module (declared there, used
throughout `replace.rs`): a fixed string, a standard regex, or a
lookaround-capable advanced regex. -/
inductive SearchType where
  | Fixed (s : List Char)
  | Pattern (p : RegexM)
  | PatternAdvanced (p : RegexM)

/-- Modelled from the spec: `SearchType::is_empty` of the missing `search`
module.  Empty search text is legal but never matches anything (§4.1), a
policy enforced by the evaluator's guard (§4.3); the check is whether the
search text / pattern source is empty. -/
def SearchType.is_empty : SearchType → Bool
  | SearchType.Fixed s => s.isEmpty
  | SearchType.Pattern p => p.source.isEmpty
  | SearchType.PatternAdvanced p => p.source.isEmpty

/-- Substring containment, modelling Rust `str::contains` for a string
pattern: true iff `pat` occurs contiguously in `s` (an empty pattern is
contained in every string). -/
def containsSubstrL (s pat : List Char) : Bool :=
  match s with
  | [] => pat.isEmpty
  | _ :: rest => pat.isPrefixOf s || containsSubstrL rest pat

/-- Modelled from the spec: `contains_search` of the missing `search`
module (§4.3): a substring containment check for literals, a match-test
for the regex variants. -/
def contains_search (line : List Char) : SearchType → Bool
  | SearchType.Fixed s => containsSubstrL line s
  | SearchType.Pattern p => p.isMatch line
  | SearchType.PatternAdvanced p => p.isMatch line

/-- Global non-overlapping left-to-right substitution, modelling Rust
`str::replace`.  The fuel argument (at least the length of the remaining
input) only guarantees termination; each step consumes at least one
character whenever `pat` is non-empty. -/
def replaceAllFixedGo (pat rep : List Char) : Nat → List Char → List Char
  | 0, s => s
  | _ + 1, [] => []
  | fuel + 1, c :: rest =>
    if pat.isPrefixOf (c :: rest) then
      rep ++ replaceAllFixedGo pat rep fuel ((c :: rest).drop pat.length)
    else
      c :: replaceAllFixedGo pat rep fuel rest

/-- Rust `str::replace` on our byte lists.  The empty-pattern case is
unreachable from `replacement_if_match` (guarded by `is_empty`) and is
mapped to the identity. -/
def replaceAllFixed (pat rep s : List Char) : List Char :=
  if pat.isEmpty then s else replaceAllFixedGo pat rep s.length s

example : replaceAllFixed "aa".toList "b".toList "aaa".toList = "ba".toList := by decide

example : replaceAllFixed "old".toList "new".toList "old old".toList = "new new".toList := by
  decide

/-- `replacement_if_match` (`replace.rs:171-186`): `none` when the text is
empty or the pattern is empty; otherwise, when the pattern occurs, the
global substitution over the whole unit of text. -/
def replacement_if_match (line : List Char) (search : SearchType) (replace : List Char) :
    Option (List Char) :=
  if line.isEmpty || SearchType.is_empty search then none
  else if contains_search line search then
    some (match search with
      | SearchType.Fixed fixed_str => replaceAllFixed fixed_str replace line
      | SearchType.Pattern pattern => pattern.replaceAll line replace
      | SearchType.PatternAdvanced pattern => pattern.replaceAll line replace)
  else none

example :
    replacement_if_match "hello world".toList (SearchType.Fixed "world".toList)
      "earth".toList = some "hello earth".toList := by decide

example :
    replacement_if_match "worldwide".toList (SearchType.Fixed "zzz".toList)
      "earth".toList = none := by decide

/-- `ReplaceStats` (`replace.rs:188-192`). -/
structure ReplaceStats where
  num_successes : Nat
  errors : List SearchResultWithReplacement
deriving DecidableEq, Repr

/-- The reconciliation conversion (`replace.rs:210-216`): a candidate the
rewrite pass never visited gets an explicit error outcome. -/
def toNotFoundError (r : SearchResultWithReplacement) : SearchResultWithReplacement :=
  { r with replace_result := some (ReplaceResult.Error "Failed to find search result in file") }

/-- One step of the fold in `calculate_statistics` (`replace.rs:201-221`).
The Rust `assert!` on `included` is modelled as `none` (the fold aborts);
a `Success` outcome bumps the counter, a missing outcome is converted to
the reconciliation error and appended, an `Error` outcome is appended. -/
def foldStats (acc : ReplaceStats) (res : SearchResultWithReplacement) :
    Option ReplaceStats :=
  if res.search_result.included then
    some (match res.replace_result with
      | some ReplaceResult.Success =>
        { acc with num_successes := acc.num_successes + 1 }
      | none =>
        { acc with errors := acc.errors ++ [toNotFoundError res] }
      | some (ReplaceResult.Error _) =>
        { acc with errors := acc.errors ++ [res] })
  else
    none

/-- `calculate_statistics` (`replace.rs:194-227`): fold all outcomes into
`ReplaceStats`; `none` models the assertion failure on a non-`included`
candidate. -/
def calculate_statistics (results : List SearchResultWithReplacement) :
    Option ReplaceStats :=
  results.foldlM foldStats { num_successes := 0, errors := [] }

/-- Whether a candidate counts as a success in the statistics fold. -/
def isSuccessResult (r : SearchResultWithReplacement) : Bool :=
  r.replace_result == some ReplaceResult.Success

/-- The error-list entry a candidate contributes (if any): `Success`
contributes nothing, a missing outcome is converted to the reconciliation
error, an explicit error is kept as-is. -/
def errEntry (r : SearchResultWithReplacement) : Option SearchResultWithReplacement :=
  match r.replace_result with
  | some ReplaceResult.Success => none
  | none => some (toNotFoundError r)
  | some (ReplaceResult.Error _) => some r

theorem foldStats_characterization (results : List SearchResultWithReplacement) :
    ∀ (acc : ReplaceStats), (∀ r ∈ results, r.search_result.included = true) →
      results.foldlM foldStats acc =
        some { num_successes := acc.num_successes + (results.countP isSuccessResult),
               errors := acc.errors ++ results.filterMap errEntry } := by
  induction results with
  | nil => intro acc _; simp
  | cons r t ih =>
    intro acc hinc
    have hr : r.search_result.included = true := hinc r (List.mem_cons_self r t)
    have ht : ∀ x ∈ t, x.search_result.included = true := by
      intro x hx; exact hinc x (List.mem_cons_of_mem r hx)
    rcases hrr : r.replace_result with _ | res
    · have hstep : foldStats acc r =
          some { acc with errors := acc.errors ++ [toNotFoundError r] } := by
        unfold foldStats; rw [if_pos hr, hrr]
      simp only [List.foldlM_cons, hstep]
      show List.foldlM foldStats _ t = _
      rw [ih _ ht]
      simp [isSuccessResult, errEntry, hrr, List.countP_cons]
    · rcases res with _ | msg
      · have hstep : foldStats acc r =
            some { acc with num_successes := acc.num_successes + 1 } := by
          unfold foldStats; rw [if_pos hr, hrr]
        simp only [List.foldlM_cons, hstep]
        show List.foldlM foldStats _ t = _
        rw [ih _ ht]
        simp [List.countP_cons, isSuccessResult, errEntry, hrr, Nat.add_assoc,
          Nat.add_comm 1]
      · have hstep : foldStats acc r =
            some { acc with errors := acc.errors ++ [r] } := by
          unfold foldStats; rw [if_pos hr, hrr]
        simp only [List.foldlM_cons, hstep]
        show List.foldlM foldStats _ t = _
        rw [ih _ ht]
        simp [List.countP_cons, isSuccessResult, errEntry, hrr]

theorem countP_add_filterMap_errEntry (results : List SearchResultWithReplacement) :
    results.countP isSuccessResult + (results.filterMap errEntry).length =
      results.length := by
  induction results with
  | nil => simp
  | cons r t ih =>
    rcases hrr : r.replace_result with _ | res
    · simp only [List.countP_cons, List.filterMap_cons, isSuccessResult, errEntry, hrr]
      simp only [List.length_cons]
      simp
      omega
    · rcases res with _ | msg
      · simp only [List.countP_cons, List.filterMap_cons, isSuccessResult, errEntry, hrr]
        simp only [List.length_cons]
        simp
        omega
      · simp only [List.countP_cons, List.filterMap_cons, isSuccessResult, errEntry, hrr]
        simp only [List.length_cons]
        simp
        omega

theorem calculate_statistics_abort (results : List SearchResultWithReplacement) :
    ∀ (acc : ReplaceStats) (r : SearchResultWithReplacement), r ∈ results →
      r.search_result.included = false →
      results.foldlM foldStats acc = none := by
  induction results with
  | nil => intro _ r hr; exact absurd hr (List.not_mem_nil r)
  | cons c t ih =>
    intro acc r hr hinc
    rcases List.mem_cons.mp hr with heq | hmem
    · subst heq
      have hstep : foldStats acc r = none := by
        unfold foldStats; rw [if_neg (by simp [hinc])]
      simp [List.foldlM_cons, hstep]
    · by_cases hc : c.search_result.included = true
      · have hstep : ∃ acc2, foldStats acc c = some acc2 := by
          unfold foldStats
          rw [if_pos hc]
          exact ⟨_, rfl⟩
        obtain ⟨acc2, hacc2⟩ := hstep
        simp only [List.foldlM_cons, hacc2]
        show List.foldlM foldStats acc2 t = none
        exact ih acc2 r hmem hinc
      · have hstep : foldStats acc c = none := by
          unfold foldStats; rw [if_neg hc]
        simp [List.foldlM_cons, hstep]

/-- `MAX_FILE_SIZE` (`replace.rs:68`): 100 MiB. -/
def MAX_FILE_SIZE : Nat := 100 * 1024 * 1024

/-- `should_replace_in_memory` (`replace.rs:70-73`): stat the file and
compare its size against the threshold; a stat failure propagates.  The
result of `fs::metadata(path)?.len()` is passed in as `statResult`. -/
def should_replace_in_memory (statResult : Except String Nat) : Except String Bool :=
  match statResult with
  | Except.ok file_size => Except.ok (decide (file_size <= MAX_FILE_SIZE))
  | Except.error e => Except.error e

/-- The two rewrite strategies of the hybrid approach (spec §4.4). -/
inductive Strategy where
  | inMemory
  | streaming
deriving DecidableEq, Repr

/-- Dispatch logic of `replace_all_in_file` (`replace.rs:94-113`),
abstracting the two strategies by their outcomes: when
`should_replace_in_memory` yields `Ok(true)` the in-memory attempt runs;
its error is swallowed (only logged) and the chunked strategy runs
instead; any other stat outcome goes directly to the chunked strategy.
Returns the strategies attempted, in order, and the overall result. -/
def replace_all_in_file (statResult : Except String Nat)
    (inMemoryOutcome chunkedOutcome : Except String Bool) :
    List Strategy × Except String Bool :=
  match should_replace_in_memory statResult with
  | Except.ok true =>
    match inMemoryOutcome with
    | Except.ok replaced => ([Strategy.inMemory], Except.ok replaced)
    | Except.error _ => ([Strategy.inMemory, Strategy.streaming], chunkedOutcome)
  | _ => ([Strategy.streaming], chunkedOutcome)

/-- A file path as `replace_in_file` consumes it: its textual form and the
result of Rust `Path::parent` (`none` when no parent directory is
resolvable, e.g. for a root or empty path). -/
structure RustPath where
  pathStr : String
  parent : Option String
deriving DecidableEq, Repr

/-- File-system actions of `replace_in_file`, in program order. -/
inductive FsEvent where
  | createTempFileIn (dir : String)
  | openForRead (path : String)
  | createTempOutput
  | writeAndFlush
  | persistOver (path : String)
deriving DecidableEq, Repr

/-- Effect order of `replace_in_file` (`replace.rs:32-65`): the temporary
file is created in `file_path.parent().unwrap_or(Path::new("."))` as the
first file-system action, before the input file is even opened; the last
action renames the temp file over the original. -/
def replace_in_file_events (p : RustPath) : List FsEvent :=
  [FsEvent.createTempFileIn (p.parent.getD "."),
   FsEvent.openForRead p.pathStr,
   FsEvent.createTempOutput,
   FsEvent.writeAndFlush,
   FsEvent.persistOver p.pathStr]

/-- The whole-tree summary string built by `find_and_replace_impl`
(`run.rs:73-76`) from the number of files the walker replaced. -/
def files_branch_summary (num_files_replaced : Nat) : String :=
  "Success: " ++ toString num_files_replaced ++ " file" ++
    (if num_files_replaced ≠ 1 then "s" else "") ++ " updated"

example : files_branch_summary 0 = "Success: 0 files updated" := by decide
example : files_branch_summary 1 = "Success: 1 file updated" := by decide
example : files_branch_summary 3 = "Success: 3 files updated" := by decide

/-- Strips one trailing `\r` from a reversed line accumulator; helper for
Rust `str::lines`, which strips a `\r` only as part of a `\r\n`
terminator. -/
def stripTrailingCr (acc : List Char) : List Char :=
  match acc with
  | '\r' :: t => t
  | _ => acc

/-- Rust `str::lines` (used at `run.rs:52`): split at `\n` or `\r\n`,
terminators excluded, with the final terminator optional (a trailing
terminator produces no extra empty line).  `acc` holds the current line in
reverse. -/
def rustLinesAux (acc : List Char) : List Char → List (List Char)
  | [] => if acc.isEmpty then [] else [acc.reverse]
  | c :: rest =>
    if c = '\n' then (stripTrailingCr acc).reverse :: rustLinesAux [] rest
    else rustLinesAux (c :: acc) rest

/-- Rust `str::lines` entry point. -/
def rustLines (s : List Char) : List (List Char) :=
  rustLinesAux [] s

example : rustLines "a\r\nb\nc".toList = ["a".toList, "b".toList, "c".toList] := by decide
example : rustLines "a\n".toList = ["a".toList] := by decide
example : rustLines "a\r".toList = ["a\r".toList] := by decide
example : rustLines "".toList = [] := by decide
example : rustLines "\n".toList = [[]] := by decide

/-- The joining loop of the string branch of `find_and_replace_impl`
(`run.rs:52-63`): a single `\n` is pushed before every line except the
first. -/
def joinLinesLF : List (List Char) → List Char
  | [] => []
  | [l] => l
  | l :: ls => l ++ '\n' :: joinLinesLF ls

/-- The string branch of `find_and_replace_impl` (`run.rs:49-64`), i.e.
the post-validation behaviour of `find_and_replace_text`: rebuild the
content line by line, replacing each line on which the pattern matches,
joining with `\n`. -/
def find_and_replace_text (content : List Char) (search : SearchType)
    (replace : List Char) : List Char :=
  joinLinesLF ((rustLines content).map
    (fun line => (replacement_if_match line search replace).getD line))

example :
    find_and_replace_text "a\r\nb".toList (SearchType.Fixed "zzz".toList) "q".toList =
      "a\nb".toList := by decide

example :
    find_and_replace_text "hello world\n".toList (SearchType.Fixed "world".toList)
      "earth".toList = "hello earth".toList := by decide

/-- Whether a byte stream contains a `\r\n` pair. -/
def containsCRLF : List Char → Bool
  | [] => false
  | [_] => false
  | a :: b :: rest => (a = '\r' && b = '\n') || containsCRLF (b :: rest)

/-- Whether a byte stream ends in `\n`. -/
def endsWithLF : List Char → Bool
  | [] => false
  | [c] => c = '\n'
  | _ :: b :: rest => endsWithLF (b :: rest)

theorem stripTrailingCr_length_le (acc : List Char) :
    (stripTrailingCr acc).length ≤ acc.length := by
  unfold stripTrailingCr
  split
  · simp
  · exact Nat.le_refl _

theorem stripTrailingCr_length_lt (acc : List Char) (h : acc.head? = some '\r') :
    (stripTrailingCr acc).length < acc.length := by
  cases acc with
  | nil => simp at h
  | cons a t =>
    simp only [List.head?_cons, Option.some.injEq] at h
    subst h
    simp [stripTrailingCr]

theorem rustLinesAux_ne_nil (s : List Char) :
    ∀ acc : List Char, acc ≠ [] ∨ s ≠ [] → rustLinesAux acc s ≠ [] := by
  induction s with
  | nil =>
    intro acc h
    rcases h with h | h
    · simp only [rustLinesAux]
      rw [if_neg (by simpa using h)]
      simp
    · exact absurd rfl h
  | cons c rest ih =>
    intro acc _
    simp only [rustLinesAux]
    by_cases hc : c = '\n'
    · rw [if_pos hc]; simp
    · rw [if_neg hc]
      exact ih (c :: acc) (Or.inl (by simp))

theorem joinLinesLF_rustLinesAux_length (s : List Char) :
    ∀ acc : List Char,
      (joinLinesLF (rustLinesAux acc s)).length ≤ acc.length + s.length ∧
      ((containsCRLF s = true ∨ endsWithLF s = true ∨
        (acc.head? = some '\r' ∧ s.head? = some '\n')) →
        (joinLinesLF (rustLinesAux acc s)).length < acc.length + s.length) := by
  induction s with
  | nil =>
    intro acc
    constructor
    · by_cases h : acc.isEmpty
      · simp [rustLinesAux, h, joinLinesLF]
      · simp only [rustLinesAux, if_neg h]
        simp [joinLinesLF]
    · intro h
      rcases h with h | h | ⟨_, h⟩
      · simp [containsCRLF] at h
      · simp [endsWithLF] at h
      · simp at h
  | cons c rest ih =>
    intro acc
    by_cases hc : c = '\n'
    · subst hc
      rw [show rustLinesAux acc ('\n' :: rest) =
        (stripTrailingCr acc).reverse :: rustLinesAux [] rest from by
          simp [rustLinesAux]]
      cases rest with
      | nil =>
        have hstrict : (joinLinesLF [(stripTrailingCr acc).reverse]).length <
            acc.length + ('\n' :: ([] : List Char)).length := by
          simp only [joinLinesLF, List.length_reverse, List.length_cons, List.length_nil]
          have := stripTrailingCr_length_le acc
          omega
        simp only [rustLinesAux, joinLinesLF]
        refine ⟨?_, fun _ => ?_⟩
        · simpa [rustLinesAux, joinLinesLF] using Nat.le_of_lt hstrict
        · simpa [rustLinesAux, joinLinesLF] using hstrict
      | cons r1 r2 =>
        have hne : rustLinesAux [] (r1 :: r2) ≠ [] :=
          rustLinesAux_ne_nil (r1 :: r2) [] (Or.inr (by simp))
        obtain ⟨m, ms, hm⟩ : ∃ m ms, rustLinesAux [] (r1 :: r2) = m :: ms := by
          cases hx : rustLinesAux [] (r1 :: r2) with
          | nil => exact absurd hx hne
          | cons m ms => exact ⟨m, ms, rfl⟩
        have hih := ih []
        rw [hm] at hih
        have hjoin : joinLinesLF ((stripTrailingCr acc).reverse :: m :: ms) =
            (stripTrailingCr acc).reverse ++ '\n' :: joinLinesLF (m :: ms) := by
          simp [joinLinesLF]
        rw [hm, hjoin]
        have hle := stripTrailingCr_length_le acc
        constructor
        · simp only [List.length_append, List.length_reverse, List.length_cons]
          have h1 := hih.1
          simp only [List.length_nil, List.length_cons, Nat.zero_add] at h1
          omega
        · intro h
          simp only [List.length_append, List.length_reverse, List.length_cons]
          rcases h with h | h | ⟨ha, _⟩
          · have hred : containsCRLF ('\n' :: r1 :: r2) = containsCRLF (r1 :: r2) := by
              simp [containsCRLF]
            rw [hred] at h
            have h2 := hih.2 (Or.inl h)
            simp only [List.length_nil, List.length_cons, Nat.zero_add] at h2
            omega
          · have hred : endsWithLF ('\n' :: r1 :: r2) = endsWithLF (r1 :: r2) := by
              simp [endsWithLF]
            rw [hred] at h
            have h2 := hih.2 (Or.inr (Or.inl h))
            simp only [List.length_nil, List.length_cons, Nat.zero_add] at h2
            omega
          · have hlt := stripTrailingCr_length_lt acc ha
            have h1 := hih.1
            simp only [List.length_nil, List.length_cons, Nat.zero_add] at h1
            omega
    · simp only [rustLinesAux, if_neg hc]
      have hih := ih (c :: acc)
      constructor
      · have h1 := hih.1
        simp only [List.length_cons] at *
        omega
      · intro h
        have hstrict :
            containsCRLF rest = true ∨ endsWithLF rest = true ∨
              ((c :: acc).head? = some '\r' ∧ rest.head? = some '\n') := by
          rcases h with h | h | ⟨_, hh⟩
          · cases rest with
            | nil => simp [containsCRLF] at h
            | cons r1 r2 =>
              simp only [containsCRLF, Bool.or_eq_true, Bool.and_eq_true,
                decide_eq_true_eq] at h
              rcases h with ⟨hcr, hlf⟩ | h
              · exact Or.inr (Or.inr (by simp [hcr, hlf]))
              · exact Or.inl h
          · cases rest with
            | nil =>
              simp only [endsWithLF, decide_eq_true_eq] at h
              exact absurd h hc
            | cons r1 r2 =>
              have : endsWithLF (c :: r1 :: r2) = endsWithLF (r1 :: r2) := by
                simp [endsWithLF]
              rw [this] at h
              exact Or.inr (Or.inl h)
          · simp only [List.head?_cons, Option.some.injEq] at hh
            exact absurd hh hc
        have h2 := hih.2 hstrict
        simp only [List.length_cons] at *
        omega

theorem finalMarkFrom_search_result (idx : Nat) (L : List (List Char × LineEnding))
    (c : SearchResultWithReplacement) :
    (finalMarkFrom idx L c).search_result = c.search_result := by
  unfold finalMarkFrom
  split
  · split <;> rfl
  · rfl

theorem findCand_map_preserve (f : SearchResultWithReplacement → SearchResultWithReplacement)
    (hf : ∀ c, (f c).search_result.line_number = c.search_result.line_number) :
    ∀ (cands : List SearchResultWithReplacement) (n : Nat),
      findCand (cands.map f) n = Option.map f (findCand cands n) := by
  intro cands n
  induction cands with
  | nil => rfl
  | cons c t ih =>
    simp only [List.map_cons, findCand]
    rw [hf c]
    by_cases h : (c.search_result.line_number == n) = true
    · simp [h]
    · simp only [h, Bool.false_eq_true, if_false]
      exact ih

theorem findCand_line_number :
    ∀ (cands : List SearchResultWithReplacement) (n : Nat)
      (c : SearchResultWithReplacement),
      findCand cands n = some c → c.search_result.line_number = n := by
  intro cands n
  induction cands with
  | nil => intro c h; exact absurd h (by simp [findCand])
  | cons d t ih =>
    intro c h
    simp only [findCand] at h
    by_cases hd : (d.search_result.line_number == n) = true
    · rw [if_pos hd] at h
      cases h
      exact beq_iff_eq.mp hd
    · rw [if_neg hd] at h
      exact ih c h

/-- C1: during the streaming rewrite pass, every line whose 1-indexed line
number has a pending candidate is compared byte-for-byte against the
candidate's cached original content; on a match the cached replacement is
written and the candidate's outcome is set to `Success`, otherwise the
line is written through unchanged and the outcome is set to
`Error "File changed since last search"`. -/
theorem frep_C1_streaming_line_outcomes
    (cands : List SearchResultWithReplacement) (file : List Char) (i : Nat)
    (line : List Char) (ending : LineEnding) (c : SearchResultWithReplacement)
    (hnd : (cands.map (fun x => x.search_result.line_number)).Nodup)
    (hline : (lines_with_endings file).get? i = some (line, ending))
    (hc : findCand cands (i + 1) = some c) :
    findCand (replace_in_file cands file).2 (i + 1) =
      some { c with replace_result := some (lineResultFor line c) } ∧
    lineOut cands (i + 1) line =
      (if line = c.search_result.line then c.replacement else line) ∧
    lineResultFor line c =
      (if line = c.search_result.line then ReplaceResult.Success
       else ReplaceResult.Error "File changed since last search") ∧
    (replace_in_file cands file).1 = outputSpec cands (lines_with_endings file) := by
  have heq := replace_in_file_eq cands file
  have hn : c.search_result.line_number = i + 1 :=
    findCand_line_number cands (i + 1) c hc
  refine ⟨?_, ?_, rfl, ?_⟩
  · rw [show (replace_in_file cands file).2 =
      cands.map (finalMarkFrom 0 (lines_with_endings file)) from by rw [heq]]
    rw [findCand_map_preserve (finalMarkFrom 0 (lines_with_endings file))
      (fun c => by rw [finalMarkFrom_search_result]) cands (i + 1), hc]
    simp only [Option.map_some']
    unfold finalMarkFrom
    rw [if_pos (by omega)]
    rw [show c.search_result.line_number - 0 - 1 = i from by omega, hline]
  · unfold lineOut
    rw [hc]
  · rw [show (replace_in_file cands file).1 =
      outputSpec cands (lines_with_endings file) from by rw [heq]]

/-- Concrete candidate for exercising the streaming rewrite pass. -/
def c1cand : SearchResultWithReplacement :=
  { search_result :=
      { path := some "t.txt", line_number := 2, line := "old text".toList,
        line_ending := LineEnding.crLf, included := true },
    replacement := "new text".toList,
    replace_result := none }

/-- Concrete file contents for exercising the streaming rewrite pass. -/
def c1file : List Char := "line 1\nold text\r\nline 3".toList

theorem frep_C1_witness :
    ([c1cand].map (fun x => x.search_result.line_number)).Nodup ∧
    (lines_with_endings c1file).get? 1 = some ("old text".toList, LineEnding.crLf) ∧
    findCand [c1cand] 2 = some c1cand ∧
    (findCand (replace_in_file [c1cand] c1file).2 2 =
      some { c1cand with replace_result := some (lineResultFor "old text".toList c1cand) } ∧
    lineOut [c1cand] 2 "old text".toList =
      (if "old text".toList = c1cand.search_result.line then c1cand.replacement
       else "old text".toList) ∧
    lineResultFor "old text".toList c1cand =
      (if "old text".toList = c1cand.search_result.line then ReplaceResult.Success
       else ReplaceResult.Error "File changed since last search") ∧
    (replace_in_file [c1cand] c1file).1 = outputSpec [c1cand] (lines_with_endings c1file)) :=
  ⟨by decide, by decide, by decide,
   frep_C1_streaming_line_outcomes [c1cand] c1file 1 "old text".toList LineEnding.crLf
     c1cand (by decide) (by decide) (by decide)⟩

/-- C2: every output line of the streaming rewrite pass carries exactly
the line terminator of the corresponding input line (the output is the
flattening of, per input line, its computed content followed by its own
original terminator), and a line with no pending candidate is copied to
the output byte-identically. -/
theorem frep_C2_terminator_preservation
    (cands : List SearchResultWithReplacement) (file : List Char)
    (hnd : (cands.map (fun x => x.search_result.line_number)).Nodup) :
    (replace_in_file cands file).1 = outputSpec cands (lines_with_endings file) ∧
    (∀ (i : Nat) (line : List Char) (ending : LineEnding),
      (lines_with_endings file).get? i = some (line, ending) →
      findCand cands (i + 1) = none → lineOut cands (i + 1) line = line) := by
  constructor
  · rw [replace_in_file_eq cands file]
  · intro i line ending _ hnone
    unfold lineOut
    rw [hnone]

/-- Concrete candidate for the terminator-preservation witness. -/
def c2cand : SearchResultWithReplacement :=
  { search_result :=
      { path := some "m.txt", line_number := 2, line := "old".toList,
        line_ending := LineEnding.crLf, included := true },
    replacement := "new".toList,
    replace_result := none }

/-- Concrete mixed-terminator file for the terminator-preservation
witness: `\n`, `\r\n` and an unterminated last line. -/
def c2file : List Char := "a\nold\r\nkeep\nlast".toList

theorem frep_C2_witness :
    ([c2cand].map (fun x => x.search_result.line_number)).Nodup ∧
    ((replace_in_file [c2cand] c2file).1 = outputSpec [c2cand] (lines_with_endings c2file) ∧
     (∀ (i : Nat) (line : List Char) (ending : LineEnding),
       (lines_with_endings c2file).get? i = some (line, ending) →
       findCand [c2cand] (i + 1) = none → lineOut [c2cand] (i + 1) line = line)) ∧
    (replace_in_file [c2cand] c2file).1 = "a\nnew\r\nkeep\nlast".toList :=
  ⟨by decide, frep_C2_terminator_preservation [c2cand] c2file (by decide), by decide⟩

/-- C3: under the `included` precondition, `calculate_statistics` accounts
for every folded candidate: the successes and the error list partition the
input (their sizes sum to the number of candidates), and every candidate
with no recorded outcome is converted to
`Error "Failed to find search result in file"` and appears in the error
list rather than being dropped. -/
theorem frep_C3_statistics_completeness
    (results : List SearchResultWithReplacement)
    (hinc : ∀ r ∈ results, r.search_result.included = true) :
    calculate_statistics results =
      some { num_successes := results.countP isSuccessResult,
             errors := results.filterMap errEntry } ∧
    results.countP isSuccessResult + (results.filterMap errEntry).length =
      results.length ∧
    (∀ r ∈ results, r.replace_result = none →
      toNotFoundError r ∈ results.filterMap errEntry) := by
  refine ⟨?_, countP_add_filterMap_errEntry results, ?_⟩
  · unfold calculate_statistics
    rw [foldStats_characterization results _ hinc]
    simp
  · intro r hr hnone
    exact List.mem_filterMap.mpr ⟨r, hr, by simp [errEntry, hnone]⟩

/-- Concrete candidate with a recorded success. -/
def c3success : SearchResultWithReplacement :=
  { search_result :=
      { path := some "s.txt", line_number := 1, line := "x".toList,
        line_ending := LineEnding.lf, included := true },
    replacement := "y".toList,
    replace_result := some ReplaceResult.Success }

/-- Concrete candidate that was never visited by the rewrite pass. -/
def c3missing : SearchResultWithReplacement :=
  { search_result :=
      { path := some "s.txt", line_number := 7, line := "gone".toList,
        line_ending := LineEnding.lf, included := true },
    replacement := "y".toList,
    replace_result := none }

/-- Concrete candidate with a recorded error. -/
def c3error : SearchResultWithReplacement :=
  { search_result :=
      { path := some "s.txt", line_number := 3, line := "z".toList,
        line_ending := LineEnding.lf, included := true },
    replacement := "y".toList,
    replace_result := some (ReplaceResult.Error "File changed since last search") }

theorem frep_C3_witness :
    (∀ r ∈ [c3success, c3missing, c3error], r.search_result.included = true) ∧
    (calculate_statistics [c3success, c3missing, c3error] =
      some { num_successes := [c3success, c3missing, c3error].countP isSuccessResult,
             errors := [c3success, c3missing, c3error].filterMap errEntry } ∧
     [c3success, c3missing, c3error].countP isSuccessResult +
        ([c3success, c3missing, c3error].filterMap errEntry).length =
          [c3success, c3missing, c3error].length ∧
     (∀ r ∈ [c3success, c3missing, c3error], r.replace_result = none →
       toNotFoundError r ∈ [c3success, c3missing, c3error].filterMap errEntry)) ∧
    calculate_statistics [c3success, c3missing, c3error] =
      some { num_successes := 1, errors := [toNotFoundError c3missing, c3error] } :=
  ⟨by decide, frep_C3_statistics_completeness [c3success, c3missing, c3error] (by decide),
   by decide⟩

/-- C4: the in-memory strategy is attempted exactly when stat succeeds
with a size of at most 100 MiB; an in-memory failure is swallowed and the
streaming strategy produces the overall result; a size over the threshold
goes directly to streaming. -/
theorem frep_C4_hybrid_dispatch (statResult : Except String Nat)
    (inMemoryOutcome chunkedOutcome : Except String Bool) :
    (Strategy.inMemory ∈
        (replace_all_in_file statResult inMemoryOutcome chunkedOutcome).1 ↔
      ∃ n, statResult = Except.ok n ∧ n ≤ MAX_FILE_SIZE) ∧
    (∀ e, inMemoryOutcome = Except.error e →
      (replace_all_in_file statResult inMemoryOutcome chunkedOutcome).2 =
        chunkedOutcome ∧
      Strategy.streaming ∈
        (replace_all_in_file statResult inMemoryOutcome chunkedOutcome).1) ∧
    (∀ n, statResult = Except.ok n → MAX_FILE_SIZE < n →
      replace_all_in_file statResult inMemoryOutcome chunkedOutcome =
        ([Strategy.streaming], chunkedOutcome)) := by
  rcases statResult with e | n
  · refine ⟨?_, ?_, ?_⟩
    · simp [replace_all_in_file, should_replace_in_memory]
    · intro er he
      simp [replace_all_in_file, should_replace_in_memory]
    · intro n hn
      exact absurd hn (by simp)
  · by_cases hsize : n ≤ MAX_FILE_SIZE
    · have hmem : should_replace_in_memory (Except.ok n) = Except.ok true := by
        simp [should_replace_in_memory, hsize]
      refine ⟨?_, ?_, ?_⟩
      · constructor
        · intro _; exact ⟨n, rfl, hsize⟩
        · intro _
          rcases inMemoryOutcome with er | b <;>
            simp [replace_all_in_file, hmem]
      · intro e he
        subst he
        simp [replace_all_in_file, hmem]
      · intro m hm hlt
        cases hm
        exact absurd hlt (by omega)
    · have hmem : should_replace_in_memory (Except.ok n) = Except.ok false := by
        simp [should_replace_in_memory]
        omega
      refine ⟨?_, ?_, ?_⟩
      · constructor
        · intro hin
          rw [show replace_all_in_file (Except.ok n) inMemoryOutcome chunkedOutcome =
              ([Strategy.streaming], chunkedOutcome) from by
            unfold replace_all_in_file; rw [hmem]] at hin
          simp at hin
        · rintro ⟨m, hm, hle⟩
          cases hm
          exact absurd hle hsize
      · intro e he
        rw [show replace_all_in_file (Except.ok n) inMemoryOutcome chunkedOutcome =
            ([Strategy.streaming], chunkedOutcome) from by
          unfold replace_all_in_file; rw [hmem]]
        simp
      · intro m hm _
        cases hm
        unfold replace_all_in_file
        rw [hmem]

theorem frep_C4_witness :
    Strategy.inMemory ∈
      (replace_all_in_file (Except.ok 7) (Except.error "boom") (Except.ok true)).1 ∧
    ((replace_all_in_file (Except.ok 7) (Except.error "boom") (Except.ok true)).2 =
        Except.ok true ∧
      Strategy.streaming ∈
        (replace_all_in_file (Except.ok 7) (Except.error "boom") (Except.ok true)).1) ∧
    replace_all_in_file (Except.ok (MAX_FILE_SIZE + 1)) (Except.ok true)
        (Except.ok false) = ([Strategy.streaming], Except.ok false) :=
  ⟨(frep_C4_hybrid_dispatch (Except.ok 7) (Except.error "boom")
      (Except.ok true)).1.mpr ⟨7, rfl, by decide⟩,
   (frep_C4_hybrid_dispatch (Except.ok 7) (Except.error "boom")
      (Except.ok true)).2.1 "boom" rfl,
   (frep_C4_hybrid_dispatch (Except.ok (MAX_FILE_SIZE + 1)) (Except.ok true)
      (Except.ok false)).2.2 (MAX_FILE_SIZE + 1) rfl (by decide)⟩

/-- C5: `replacement_if_match` returns `none` on empty input text for
every pattern, and an empty literal search text never produces a
replacement on any input, including the empty string. -/
theorem frep_C5_empty_policy :
    (∀ (search : SearchType) (replace : List Char),
      replacement_if_match [] search replace = none) ∧
    (∀ (line replace : List Char),
      replacement_if_match line (SearchType.Fixed []) replace = none) := by
  constructor
  · intro search replace
    unfold replacement_if_match
    simp
  · intro line replace
    unfold replacement_if_match
    simp [SearchType.is_empty]

/-- C6 counterexample: for the root path, which has no resolvable parent
directory, `replace_in_file` does not fail fast; its very first
file-system action is creating the temporary file, in the current
directory `"."`. -/
theorem frep_C6_counterexample :
    (replace_in_file_events { pathStr := "/", parent := none }).head? =
      some (FsEvent.createTempFileIn ".") ∧
    FsEvent.createTempFileIn "." ∈
      replace_in_file_events { pathStr := "/", parent := none } := by
  constructor
  · rfl
  · simp [replace_in_file_events]

/-- C6 amended: when the target path has no resolvable parent directory,
`replace_in_file` substitutes the current directory `"."`
(`parent().unwrap_or(Path::new("."))`) and creates the temporary file
there as its first action; it does not fail before creating it. -/
theorem frep_C6_amended (p : RustPath) (hp : p.parent = none) :
    (replace_in_file_events p).head? = some (FsEvent.createTempFileIn ".") := by
  simp [replace_in_file_events, hp]

theorem frep_C6_amended_witness :
    ({ pathStr := "/", parent := none } : RustPath).parent = none ∧
    (replace_in_file_events { pathStr := "/", parent := none }).head? =
      some (FsEvent.createTempFileIn ".") :=
  ⟨rfl, frep_C6_amended { pathStr := "/", parent := none } rfl⟩

/-- C7 counterexample: the whole-tree summary for one updated file is
`"Success: 1 file updated"` (singular, with nothing following), not the
claimed form `"Success: N files updated"` followed by aggregated error
detail. -/
theorem frep_C7_counterexample :
    files_branch_summary 1 = "Success: 1 file updated" ∧
    files_branch_summary 1 ≠ "Success: 1 files updated" := by
  constructor
  · decide
  · decide

/-- C7 amended: for every whole-tree run that passes validation, the
returned summary is exactly `"Success: "`, the count of files replaced,
and `" files updated"` (`" file updated"` when the count is 1) — no error
detail is ever appended to the summary. -/
theorem frep_C7_amended (n : Nat) :
    (files_branch_summary n).data =
      "Success: ".data ++ (toString n).data ++
        (if n = 1 then " file updated" else " files updated").data := by
  by_cases h : n = 1
  · subst h
    decide
  · have hconcrete : " file".data ++ ("s".data ++ " updated".data) =
        " files updated".data := by decide
    unfold files_branch_summary
    rw [if_pos h, if_neg h]
    simp only [String.data_append, List.append_assoc]
    rw [hconcrete]

theorem frep_C7_amended_witness :
    (files_branch_summary 3).data =
      "Success: ".data ++ (toString 3).data ++
        (if 3 = 1 then " file updated" else " files updated").data :=
  frep_C7_amended 3

/-- One application of the replacement: the input itself when
`replacement_if_match` yields `none`, the returned text otherwise. -/
def applyReplacement (s : List Char) (search : SearchType) (replace : List Char) :
    List Char :=
  (replacement_if_match s search replace).getD s

theorem replacement_if_match_none_of_not_contains (t : List Char)
    (search : SearchType) (replace : List Char)
    (h : contains_search t search = false) :
    replacement_if_match t search replace = none := by
  unfold replacement_if_match
  by_cases h1 : (t.isEmpty || SearchType.is_empty search) = true
  · rw [if_pos h1]
  · rw [if_neg h1, if_neg (by simp [h])]

/-- C8: replacement is idempotent when the replacement no longer matches:
if the pattern does not match the once-replaced text, applying the
replacement a second time returns the once-replaced text unchanged. -/
theorem frep_C8_idempotence (s : List Char) (search : SearchType) (replace : List Char)
    (h : contains_search (applyReplacement s search replace) search = false) :
    applyReplacement (applyReplacement s search replace) search replace =
      applyReplacement s search replace := by
  show (replacement_if_match (applyReplacement s search replace) search replace).getD
      (applyReplacement s search replace) = applyReplacement s search replace
  rw [replacement_if_match_none_of_not_contains _ search replace h]
  rfl

theorem frep_C8_witness :
    contains_search
        (applyReplacement "hello world".toList (SearchType.Fixed "world".toList)
          "earth".toList)
        (SearchType.Fixed "world".toList) = false ∧
    applyReplacement
        (applyReplacement "hello world".toList (SearchType.Fixed "world".toList)
          "earth".toList)
        (SearchType.Fixed "world".toList) "earth".toList =
      applyReplacement "hello world".toList (SearchType.Fixed "world".toList)
        "earth".toList ∧
    applyReplacement "hello world".toList (SearchType.Fixed "world".toList)
        "earth".toList = "hello earth".toList :=
  ⟨by decide,
   frep_C8_idempotence "hello world".toList (SearchType.Fixed "world".toList)
     "earth".toList (by decide),
   by decide⟩

/-- C9: `calculate_statistics` requires every folded candidate to be
`included`: folding any non-`included` candidate trips the assertion
(modelled as `none`), and when every candidate is `included` the
assertion never fires (the fold always produces statistics). -/
theorem frep_C9_included_assertion :
    (∀ results : List SearchResultWithReplacement,
      (∀ r ∈ results, r.search_result.included = true) →
      (calculate_statistics results).isSome = true) ∧
    (∀ (results : List SearchResultWithReplacement)
        (r : SearchResultWithReplacement),
      r ∈ results → r.search_result.included = false →
      calculate_statistics results = none) := by
  constructor
  · intro results hinc
    unfold calculate_statistics
    rw [foldStats_characterization results _ hinc]
    rfl
  · intro results r hr hinc
    exact calculate_statistics_abort results _ r hr hinc

/-- Concrete included candidate for the assertion witness. -/
def c9good : SearchResultWithReplacement :=
  { search_result :=
      { path := some "w.txt", line_number := 1, line := "a".toList,
        line_ending := LineEnding.lf, included := true },
    replacement := "b".toList,
    replace_result := some ReplaceResult.Success }

/-- Concrete non-included candidate for the assertion witness. -/
def c9bad : SearchResultWithReplacement :=
  { search_result :=
      { path := some "w.txt", line_number := 2, line := "c".toList,
        line_ending := LineEnding.lf, included := false },
    replacement := "d".toList,
    replace_result := some ReplaceResult.Success }

theorem frep_C9_witness :
    (∀ r ∈ [c9good], r.search_result.included = true) ∧
    (calculate_statistics [c9good]).isSome = true ∧
    c9bad ∈ [c9good, c9bad] ∧
    c9bad.search_result.included = false ∧
    calculate_statistics [c9good, c9bad] = none :=
  ⟨by decide,
   frep_C9_included_assertion.1 [c9good] (by decide),
   by decide, by decide,
   frep_C9_included_assertion.2 [c9good, c9bad] c9bad (by decide) (by decide)⟩

/-- C10: the string-mode run rebuilds its output by joining the input's
lines with a single `\n` (`\r\n` terminators become `\n` and a trailing
terminator is dropped), so when the pattern matches nothing, an input
containing `\r\n` or ending in a newline comes back changed — string-mode
runs do not preserve line endings byte-for-byte. -/
theorem frep_C10_string_mode_normalizes (content : List Char) (search : SearchType)
    (replace : List Char)
    (hnm : ∀ line ∈ rustLines content,
      replacement_if_match line search replace = none)
    (hterm : containsCRLF content = true ∨ endsWithLF content = true) :
    find_and_replace_text content search replace = joinLinesLF (rustLines content) ∧
    find_and_replace_text content search replace ≠ content := by
  have hmap : (rustLines content).map
      (fun line => (replacement_if_match line search replace).getD line) =
        rustLines content := by
    have : (rustLines content).map
        (fun line => (replacement_if_match line search replace).getD line) =
          (rustLines content).map (fun line => line) := by
      apply List.map_congr_left
      intro line hline
      rw [hnm line hline]
      rfl
    rw [this, List.map_id']
  constructor
  · unfold find_and_replace_text
    rw [hmap]
  · unfold find_and_replace_text
    rw [hmap]
    intro heq
    have hlt := (joinLinesLF_rustLinesAux_length content []).2
      (by rcases hterm with h | h
          · exact Or.inl h
          · exact Or.inr (Or.inl h))
    rw [show rustLinesAux [] content = rustLines content from rfl] at hlt
    rw [heq] at hlt
    simp at hlt

theorem frep_C10_witness :
    (∀ line ∈ rustLines "a\r\nb\n".toList,
      replacement_if_match line (SearchType.Fixed "zzz".toList) "q".toList = none) ∧
    (containsCRLF "a\r\nb\n".toList = true ∨ endsWithLF "a\r\nb\n".toList = true) ∧
    (find_and_replace_text "a\r\nb\n".toList (SearchType.Fixed "zzz".toList)
        "q".toList = joinLinesLF (rustLines "a\r\nb\n".toList) ∧
     find_and_replace_text "a\r\nb\n".toList (SearchType.Fixed "zzz".toList)
        "q".toList ≠ "a\r\nb\n".toList) ∧
    find_and_replace_text "a\r\nb\n".toList (SearchType.Fixed "zzz".toList)
        "q".toList = "a\nb".toList :=
  ⟨by decide, Or.inl (by decide),
   frep_C10_string_mode_normalizes "a\r\nb\n".toList (SearchType.Fixed "zzz".toList)
     "q".toList (by decide) (Or.inl (by decide)),
   by decide⟩
